import Mathlib

/-!
Verification development for the Ocean Notes application
(src/notes_frontend/src/App.js).

The app keeps an ordered list of notes and a selected-note id in React
state; the operations `createNote`, `deleteNote`, `updateNote`,
`duplicateNote` and the selection setter mutate that state.  The store
adapter `loadNotes` / `saveNotes` serializes the list as JSON under the
fixed localStorage key `notes_app.v1.items`.  Here the state is embedded
as an explicit record, JavaScript array indexing (which can take `-1`
and yield `undefined`) is embedded with `Int` indices and `Option`
results, and the JSON layer is embedded at the level of parsed JSON
values: a stored raw string is represented by what `JSON.parse` yields
on it (`.json v`), or `.malformed` when parsing throws, or `.absent`
when the key is missing or the raw value is falsy.
-/

namespace NotesApp

/-- A note record, as created by `createNote` in App.js:
string `id`, `title`, `content` and a millisecond timestamp. -/
structure Note where
  id : String
  title : String
  content : String
  updatedAt : Nat
  deriving DecidableEq, Repr

/-- A parsed JSON value, the result of `JSON.parse` on a stored string. -/
inductive JsValue where
  | null : JsValue
  | bool (b : Bool) : JsValue
  | num (n : Int) : JsValue
  | str (s : String) : JsValue
  | arr (elems : List JsValue) : JsValue
  | obj (fields : List (String × JsValue)) : JsValue
  deriving Repr

/-- The value sitting under the key `notes_app.v1.items` in localStorage:
absent (or falsy), present but rejected by `JSON.parse`, or present and
parsing to a JSON value. -/
inductive StoreVal where
  | absent : StoreVal
  | malformed : StoreVal
  | json (v : JsValue) : StoreVal

/-- `loadNotes` from App.js: returns `[]` when the key is absent, when
`JSON.parse` throws, or when the parsed value is not an array; otherwise
returns the parsed array as-is (no validation of its elements). -/
def loadNotes : StoreVal → List JsValue
  | .absent => []
  | .malformed => []
  | .json (.arr xs) => xs
  | .json _ => []

/-- The JSON value produced by `JSON.stringify` on one note object. -/
def Note.toJs (n : Note) : JsValue :=
  .obj [("id", .str n.id), ("title", .str n.title),
        ("content", .str n.content), ("updatedAt", .num n.updatedAt)]

/-- `saveNotes` from App.js: overwrites the stored value with the JSON
serialization of the full notes array, regardless of the prior value. -/
def saveNotes (notes : List Note) (_prior : StoreVal) : StoreVal :=
  .json (.arr (notes.map Note.toJs))

/-- A patch passed to `updateNote`: the call sites in App.js pass either
`{ title: ... }` or `{ content: ... }`, so the fields are a subset of
title/content. -/
structure Patch where
  title : Option String := none
  content : Option String := none
  deriving DecidableEq, Repr

/-- The state held by the `App` component: list of notes and the
selected note id (`null` embedded as `none`). -/
structure AppState where
  notes : List Note
  selectedId : Option String
  deriving DecidableEq, Repr

/-- JavaScript `Array.prototype.findIndex`: first index satisfying the
predicate, `-1` when there is none. -/
def findIndexJs (p : Note → Bool) (l : List Note) : Int :=
  if l.findIdx p < l.length then (l.findIdx p : Int) else -1

/-- JavaScript array indexing `l[i]`: `undefined` (here `none`) for a
negative or out-of-range index. -/
def jsIndex (l : List Note) (i : Int) : Option Note :=
  if 0 ≤ i then l[i.toNat]? else none

/-- `createNote` from App.js, with the generated id and `Date.now()`
passed explicitly: prepend a default note and select it. -/
def createNote (id : String) (now : Nat) (s : AppState) : AppState :=
  { notes := { id := id, title := "Untitled Note", content := "", updatedAt := now } :: s.notes,
    selectedId := some id }

/-- `deleteNote` from App.js: drop the notes matching the id; when the
deleted id was selected, fall back to `next[min(idx, next.length - 1)]`
(JavaScript arithmetic, hence `Int`), or `null` when that is undefined. -/
def deleteNote (id : String) (s : AppState) : AppState :=
  let idx : Int := findIndexJs (fun n => n.id == id) s.notes
  let next := s.notes.filter (fun n => n.id != id)
  let sel : Option String :=
    if s.selectedId = some id then
      (jsIndex next (min idx ((next.length : Int) - 1))).map Note.id
    else s.selectedId
  { notes := next, selectedId := sel }

/-- The spread `{ ...n, ...patch, updatedAt: Date.now() }`: patch fields
override when present, `updatedAt` is always refreshed. -/
def applyPatch (p : Patch) (now : Nat) (n : Note) : Note :=
  { n with
    title := p.title.getD n.title,
    content := p.content.getD n.content,
    updatedAt := now }

/-- `updateNote` from App.js: map over the list, merging the patch into
the note whose id matches. -/
def updateNote (id : String) (p : Patch) (now : Nat) (s : AppState) : AppState :=
  { s with notes := s.notes.map (fun n => if n.id = id then applyPatch p now n else n) }

/-- `duplicateNote` from App.js, with the generated id and `Date.now()`
passed explicitly: no-op when the id is absent; otherwise insert the
copy right after the source (`slice(0, idx+1) ++ [dup] ++ slice(idx+1)`)
and select it. -/
def duplicateNote (id id2 : String) (now : Nat) (s : AppState) : AppState :=
  match s.notes.find? (fun n => n.id == id) with
  | none => s
  | some original =>
    let dup : Note :=
      { original with id := id2, title := original.title ++ " (Copy)", updatedAt := now }
    let idx : Int := findIndexJs (fun n => n.id == id) s.notes
    { notes := s.notes.take (idx + 1).toNat ++ dup :: s.notes.drop (idx + 1).toNat,
      selectedId := some id2 }

/-- The sidebar's selection setter `setSelectedId(n.id)`. -/
def selectNote (id : String) (s : AppState) : AppState :=
  { s with selectedId := some id }

/-- The initial component state: `notes = loadNotes()`,
`selectedId = loadNotes()[0]?.id ?? null`, for a well-formed loaded
list. -/
def initState (loaded : List Note) : AppState :=
  { notes := loaded, selectedId := (jsIndex loaded 0).map Note.id }

/-- JavaScript `String.prototype.toLowerCase`, embedded as a
character-wise lowercasing of the string. -/
def toLowerStr (s : String) : String := String.mk (s.data.map Char.toLower)

/-- JavaScript `String.prototype.trim`: strip leading and trailing
whitespace. -/
def trimStr (s : String) : String :=
  String.mk (((s.data.dropWhile Char.isWhitespace).reverse.dropWhile Char.isWhitespace).reverse)

/-- The query normalization in the `filtered` memo: `trim().toLowerCase()`. -/
def normalizeQuery (q : String) : String := toLowerStr (trimStr q)

/-- Whether the second list starts with the first. -/
def leadsWith : List Char → List Char → Bool
  | [], _ => true
  | _ :: _, [] => false
  | p :: ps, c :: cs => p == c && leadsWith ps cs

/-- Whether `pat` occurs contiguously inside the second list. -/
def containsSeq (pat : List Char) : List Char → Bool
  | [] => pat.isEmpty
  | c :: cs => leadsWith pat (c :: cs) || containsSeq pat cs

/-- JavaScript `String.prototype.includes`: substring containment. -/
def includesSub (s pat : String) : Bool :=
  containsSeq pat.data s.data

/-- The `filtered` memo from App.js: identity for a blank query,
otherwise keep the notes whose lowercased `title + " " + content`
contains the normalized query. -/
def filterNotes (notes : List Note) (query : String) : List Note :=
  let q := normalizeQuery query
  if q = "" then notes
  else notes.filter (fun n => includesSub (toLowerStr (n.title ++ " " ++ n.content)) q)

/-- Ids of the notes in a state. -/
def noteIds (s : AppState) : List String := s.notes.map Note.id

/-- The collection invariant: no two notes share an id. -/
def idsNodup (s : AppState) : Prop := (noteIds s).Nodup

/-- The selection invariant: a non-none selection references a present id. -/
def selOk (s : AppState) : Prop :=
  ∀ sid, s.selectedId = some sid → sid ∈ noteIds s

/-- One user-triggered operation of the Collection Manager.  The ids
produced by `generateId` are passed as parameters constrained to be
fresh (the spec's uniqueness assumption on `generateId`). -/
inductive Step : AppState → AppState → Prop
  | create (s : AppState) (id : String) (now : Nat)
      (hfresh : id ∉ noteIds s) : Step s (createNote id now s)
  | delete (s : AppState) (id : String) : Step s (deleteNote id s)
  | update (s : AppState) (id : String) (p : Patch) (now : Nat) :
      Step s (updateNote id p now s)
  | duplicate (s : AppState) (id id2 : String) (now : Nat)
      (hfresh : id2 ∉ noteIds s) : Step s (duplicateNote id id2 now s)
  | select (s : AppState) (id : String) (hmem : id ∈ noteIds s) :
      Step s (selectNote id s)

/-- States the Collection Manager can be in after initializing from the
store and performing any sequence of operations. -/
def Reachable (loaded : List Note) (s : AppState) : Prop :=
  Relation.ReflTransGen Step (initState loaded) s

/-! ### Helper lemmas on lists of notes -/

/-- In a list with unique ids, no element besides the one at `i` carries
the id of the element at `i`. -/
theorem ids_ne_of_nodup_head (a : Note) (t : List Note)
    (hnd : ((a :: t).map Note.id).Nodup) :
    ∀ n ∈ t, n.id ≠ a.id := by
  intro n hn he
  have : a.id ∈ t.map Note.id := he ▸ List.mem_map_of_mem Note.id hn
  simp only [List.map_cons, List.nodup_cons] at hnd
  exact hnd.1 this

/-- The tail of a list with unique ids has unique ids. -/
theorem ids_nodup_tail (a : Note) (t : List Note)
    (hnd : ((a :: t).map Note.id).Nodup) : (t.map Note.id).Nodup := by
  simp only [List.map_cons, List.nodup_cons] at hnd
  exact hnd.2

/-- The head of a list with unique ids does not carry the id of any
element of the tail. -/
theorem head_id_ne (a : Note) (t : List Note)
    (hnd : ((a :: t).map Note.id).Nodup) (i : Nat) (hlt : i < t.length)
    (hid : (t.get ⟨i, hlt⟩).id = nid) : a.id ≠ nid := fun he =>
  ids_ne_of_nodup_head a t hnd _ (List.get_mem t i hlt) (hid.trans he.symm)

/-- `findIdx` locates the position of the unique note carrying `nid`. -/
theorem findIdx_of_nodup (l : List Note) (nid : String) (i : Nat)
    (hnd : (l.map Note.id).Nodup) (hlt : i < l.length)
    (hid : (l.get ⟨i, hlt⟩).id = nid) :
    l.findIdx (fun n => n.id == nid) = i := by
  induction l generalizing i with
  | nil => exact absurd hlt (Nat.not_lt_zero i)
  | cons a t ih =>
    match i with
    | 0 =>
      simp only [List.get] at hid
      simp [List.findIdx_cons, hid]
    | i + 1 =>
      have hlt' : i < t.length := Nat.lt_of_succ_lt_succ hlt
      have hne : a.id ≠ nid := head_id_ne a t hnd i hlt' hid
      have hfa : (a.id == nid) = false := by simp [hne]
      simp only [List.findIdx_cons, hfa, cond_false]
      have := ih i (ids_nodup_tail a t hnd) hlt' hid
      omega

/-- `find?` returns the unique note carrying `nid`. -/
theorem find?_of_nodup (l : List Note) (nid : String) (i : Nat)
    (hnd : (l.map Note.id).Nodup) (hlt : i < l.length)
    (hid : (l.get ⟨i, hlt⟩).id = nid) :
    l.find? (fun n => n.id == nid) = some (l.get ⟨i, hlt⟩) := by
  induction l generalizing i with
  | nil => exact absurd hlt (Nat.not_lt_zero i)
  | cons a t ih =>
    match i with
    | 0 =>
      simp only [List.get] at hid ⊢
      exact List.find?_cons_of_pos _ (by simp [hid])
    | i + 1 =>
      have hlt' : i < t.length := Nat.lt_of_succ_lt_succ hlt
      have hne : a.id ≠ nid := head_id_ne a t hnd i hlt' hid
      rw [List.find?_cons_of_neg _ (by simp [hne])]
      exact ih i (ids_nodup_tail a t hnd) hlt' hid

/-- Filtering away an id carried by no element of the list keeps it intact. -/
theorem filter_ne_of_absent (l : List Note) (nid : String)
    (h : ∀ n ∈ l, n.id ≠ nid) :
    l.filter (fun n => n.id != nid) = l :=
  List.filter_eq_self.mpr (fun n hn => by simp [h n hn])

/-- Filtering away the id of the unique note at position `i` removes
exactly that position. -/
theorem filter_ne_of_nodup (l : List Note) (nid : String) (i : Nat)
    (hnd : (l.map Note.id).Nodup) (hlt : i < l.length)
    (hid : (l.get ⟨i, hlt⟩).id = nid) :
    l.filter (fun n => n.id != nid) = l.take i ++ l.drop (i + 1) := by
  induction l generalizing i with
  | nil => exact absurd hlt (Nat.not_lt_zero i)
  | cons a t ih =>
    match i with
    | 0 =>
      simp only [List.get] at hid
      simp only [List.take_zero, List.drop_succ_cons, List.drop_zero, List.nil_append]
      rw [List.filter_cons_of_neg (by simp [hid])]
      exact filter_ne_of_absent t nid (fun n hn => hid ▸ ids_ne_of_nodup_head a t hnd n hn)
    | i + 1 =>
      have hlt' : i < t.length := Nat.lt_of_succ_lt_succ hlt
      have hne : a.id ≠ nid := head_id_ne a t hnd i hlt' hid
      simp only [List.take_succ_cons, List.drop_succ_cons, List.cons_append]
      rw [List.filter_cons_of_pos (by simp [hne])]
      rw [ih i (ids_nodup_tail a t hnd) hlt' hid]

/-- Mapping an id-conditional update over a list with no matching id is
the identity. -/
theorem map_patch_of_absent (l : List Note) (nid : String) (f : Note → Note)
    (h : ∀ n ∈ l, n.id ≠ nid) :
    l.map (fun n => if n.id = nid then f n else n) = l := by
  induction l with
  | nil => rfl
  | cons a t ih =>
    simp only [List.map_cons, if_neg (h a (List.mem_cons_self a t))]
    rw [ih (fun n hn => h n (List.mem_cons_of_mem a hn))]

/-- Mapping an id-conditional update over a list with unique ids touches
exactly the position of the matching note. -/
theorem map_patch_of_nodup (l : List Note) (nid : String) (f : Note → Note) (i : Nat)
    (hnd : (l.map Note.id).Nodup) (hlt : i < l.length)
    (hid : (l.get ⟨i, hlt⟩).id = nid) :
    l.map (fun n => if n.id = nid then f n else n) = l.set i (f (l.get ⟨i, hlt⟩)) := by
  induction l generalizing i with
  | nil => exact absurd hlt (Nat.not_lt_zero i)
  | cons a t ih =>
    match i with
    | 0 =>
      simp only [List.get] at hid ⊢
      simp only [List.map_cons, if_pos hid, List.set_cons_zero]
      rw [map_patch_of_absent t nid f
        (fun n hn => hid ▸ ids_ne_of_nodup_head a t hnd n hn)]
    | i + 1 =>
      have hlt' : i < t.length := Nat.lt_of_succ_lt_succ hlt
      have hne : a.id ≠ nid := head_id_ne a t hnd i hlt' hid
      simp only [List.map_cons, if_neg hne, List.set_cons_succ, List.get]
      rw [ih i (ids_nodup_tail a t hnd) hlt' hid]

/-- `jsIndex` at a `Nat` cast is plain list lookup. -/
theorem jsIndex_natCast (l : List Note) (n : Nat) : jsIndex l (n : Int) = l[n]? := by
  have h0 : (0 : Int) ≤ (n : Int) := Int.natCast_nonneg n
  have ht : ((n : Int)).toNat = n := Int.toNat_natCast n
  rw [jsIndex, if_pos h0, ht]

/-- The JavaScript fallback lookup `next[min(idx, next.length - 1)]`
with a nonnegative `idx` agrees with the `Nat`-level
`next[min idx (next.length - 1)]`, including the empty case where both
are undefined. -/
theorem jsIndex_min_eq (l : List Note) (i : Nat) :
    jsIndex l (min (i : Int) ((l.length : Int) - 1)) = l[Nat.min i (l.length - 1)]? := by
  match l with
  | [] =>
    have hm : min (i : Int) ((([] : List Note).length : Int) - 1) = -1 := by
      simp only [List.length_nil, Nat.cast_zero]
      omega
    rw [hm]
    simp [jsIndex]
  | a :: t =>
    have hm : min (i : Int) (((a :: t).length : Int) - 1) = ((Nat.min i t.length : Nat) : Int) := by
      simp only [List.length_cons]
      push_cast
      omega
    have hi : Nat.min i ((a :: t).length - 1) = Nat.min i t.length := by
      simp
    rw [hm, hi]
    exact jsIndex_natCast (a :: t) (Nat.min i t.length)

/-- `findIndexJs` agrees with the position of the unique matching note. -/
theorem findIndexJs_of_nodup (l : List Note) (nid : String) (i : Nat)
    (hnd : (l.map Note.id).Nodup) (hlt : i < l.length)
    (hid : (l.get ⟨i, hlt⟩).id = nid) :
    findIndexJs (fun n => n.id == nid) l = (i : Int) := by
  have hfi := findIdx_of_nodup l nid i hnd hlt hid
  simp [findIndexJs, hfi, hlt]

/-! ### Claim theorems: the individual operations -/

/-- C2: deleting a present id removes exactly that note, and when it was
the selected one at index `i`, the new selection is the id of the note
now at index `min i (newLength - 1)` of the resulting sequence, or none
when the resulting sequence is empty. -/
theorem deleteNote_spec (s : AppState) (nid : String) (i : Nat)
    (hnd : idsNodup s) (hlt : i < s.notes.length)
    (hid : (s.notes.get ⟨i, hlt⟩).id = nid) :
    (deleteNote nid s).notes = s.notes.take i ++ s.notes.drop (i + 1) ∧
    (s.selectedId = some nid →
      (deleteNote nid s).selectedId =
        ((s.notes.take i ++ s.notes.drop (i + 1))[Nat.min i
          ((s.notes.take i ++ s.notes.drop (i + 1)).length - 1)]?).map Note.id) := by
  have hidx : findIndexJs (fun n => n.id == nid) s.notes = (i : Int) :=
    findIndexJs_of_nodup s.notes nid i hnd hlt hid
  have hfilter := filter_ne_of_nodup s.notes nid i hnd hlt hid
  have hd : deleteNote nid s =
      { notes := s.notes.filter (fun n => n.id != nid),
        selectedId :=
          if s.selectedId = some nid then
            (jsIndex (s.notes.filter (fun n => n.id != nid))
              (min (findIndexJs (fun n => n.id == nid) s.notes)
                (((s.notes.filter (fun n => n.id != nid)).length : Int) - 1))).map Note.id
          else s.selectedId } := rfl
  rw [hd]
  refine ⟨hfilter, fun hsel => ?_⟩
  simp only [hfilter, hidx, if_pos hsel]
  rw [jsIndex_min_eq]

/-- C8: updating a present id with a patch rewrites exactly that note,
keeping its id, taking the patched fields from the patch and the
unpatched ones from the old note, refreshing `updatedAt`, and leaving
every other note, the order, the length and the selection unchanged. -/
theorem updateNote_spec (s : AppState) (nid : String) (p : Patch) (now : Nat) (i : Nat)
    (hnd : idsNodup s) (hlt : i < s.notes.length)
    (hid : (s.notes.get ⟨i, hlt⟩).id = nid) :
    updateNote nid p now s =
      { s with
          notes := s.notes.set i
            ({ id := (s.notes.get ⟨i, hlt⟩).id,
               title := p.title.getD (s.notes.get ⟨i, hlt⟩).title,
               content := p.content.getD (s.notes.get ⟨i, hlt⟩).content,
               updatedAt := now }) } := by
  have hm := map_patch_of_nodup s.notes nid (applyPatch p now) i hnd hlt hid
  simp only [updateNote]
  rw [hm]
  rfl

/-- C4: duplicating a present id inserts, immediately after its position,
a copy carrying the supplied fresh id, the source title suffixed with
" (Copy)", the source content and the current time, keeps all other
notes in relative order, and selects the copy. -/
theorem duplicateNote_spec (s : AppState) (nid id2 : String) (now : Nat) (i : Nat)
    (hnd : idsNodup s) (hlt : i < s.notes.length)
    (hid : (s.notes.get ⟨i, hlt⟩).id = nid) :
    duplicateNote nid id2 now s =
      { notes := s.notes.take (i + 1)
          ++ { id := id2,
               title := (s.notes.get ⟨i, hlt⟩).title ++ " (Copy)",
               content := (s.notes.get ⟨i, hlt⟩).content,
               updatedAt := now } :: s.notes.drop (i + 1),
        selectedId := some id2 } := by
  have hfind := find?_of_nodup s.notes nid i hnd hlt hid
  have hidx : findIndexJs (fun n => n.id == nid) s.notes = (i : Int) :=
    findIndexJs_of_nodup s.notes nid i hnd hlt hid
  have htn : ((i : Int) + 1).toNat = i + 1 := by omega
  simp only [duplicateNote, hfind, hidx, htn]

/-! ### Invariant preservation -/

/-- A successful `jsIndex` lookup yields an element of the list. -/
theorem jsIndex_mem (l : List Note) (j : Int) (n : Note)
    (h : jsIndex l j = some n) : n ∈ l := by
  rw [jsIndex] at h
  split at h
  · exact List.getElem?_mem h
  · exact absurd h (by simp)

/-- `updateNote` leaves the id sequence untouched. -/
theorem noteIds_updateNote (nid : String) (p : Patch) (now : Nat) (s : AppState) :
    noteIds (updateNote nid p now s) = noteIds s := by
  simp only [noteIds, updateNote, List.map_map]
  exact List.map_congr_left (fun n _ => by
    by_cases h : n.id = nid <;> simp [h, applyPatch])

/-- Each Collection Manager operation preserves uniqueness of ids. -/
theorem nodup_step (s s' : AppState) (h : Step s s') (hnd : idsNodup s) :
    idsNodup s' := by
  cases h with
  | create id now hfresh =>
    simpa [idsNodup, noteIds, createNote] using
      List.nodup_cons.mpr ⟨hfresh, hnd⟩
  | delete id =>
    have hsub : ((s.notes.filter (fun n => n.id != id)).map Note.id).Sublist
        (s.notes.map Note.id) := (List.filter_sublist s.notes).map Note.id
    exact hnd.sublist hsub
  | update id p now =>
    show (noteIds (updateNote id p now s)).Nodup
    rw [noteIds_updateNote]
    exact hnd
  | duplicate id id2 now hfresh =>
    show idsNodup (duplicateNote id id2 now s)
    cases hf : s.notes.find? (fun n => n.id == id) with
    | none => simpa [duplicateNote, hf] using hnd
    | some orig =>
      simp only [duplicateNote, hf, idsNodup, noteIds, List.map_append,
        List.map_take, List.map_cons, List.map_drop]
      generalize (findIndexJs (fun n => n.id == id) s.notes + 1).toNat = k
      have h1 : List.Perm
          ((s.notes.map Note.id).take k ++ id2 :: (s.notes.map Note.id).drop k)
          (id2 :: ((s.notes.map Note.id).take k ++ (s.notes.map Note.id).drop k)) :=
        List.perm_middle
      rw [List.take_append_drop] at h1
      exact (List.Perm.nodup_iff h1).mpr (List.nodup_cons.mpr ⟨hfresh, hnd⟩)
  | select id hmem =>
    exact hnd

/-- Each Collection Manager operation preserves validity of the selection. -/
theorem selOk_step (s s' : AppState) (h : Step s s') (hs : selOk s) : selOk s' := by
  cases h with
  | create id now hfresh =>
    intro sid hsid
    have h2 : some id = some sid := hsid
    cases h2
    simp [noteIds, createNote]
  | delete id =>
    intro sid hsid
    have hd : (deleteNote id s).selectedId =
        (if s.selectedId = some id then
          (jsIndex (s.notes.filter (fun n => n.id != id))
            (min (findIndexJs (fun n => n.id == id) s.notes)
              (((s.notes.filter (fun n => n.id != id)).length : Int) - 1))).map Note.id
        else s.selectedId) := rfl
    rw [hd] at hsid
    show sid ∈ (s.notes.filter (fun n => n.id != id)).map Note.id
    by_cases hsel : s.selectedId = some id
    · rw [if_pos hsel] at hsid
      obtain ⟨n, hn, rfl⟩ := Option.map_eq_some'.mp hsid
      exact List.mem_map_of_mem Note.id (jsIndex_mem _ _ _ hn)
    · rw [if_neg hsel] at hsid
      obtain ⟨n, hn, rfl⟩ := List.mem_map.mp (hs sid hsid)
      have hne : n.id ≠ id := fun he => hsel (he ▸ hsid)
      refine List.mem_map_of_mem Note.id (List.mem_filter.mpr ⟨hn, ?_⟩)
      simp [hne]
  | update id p now =>
    intro sid hsid
    rw [noteIds_updateNote]
    exact hs sid hsid
  | duplicate id id2 now hfresh =>
    intro sid hsid
    cases hf : s.notes.find? (fun n => n.id == id) with
    | none =>
      simp only [duplicateNote, hf] at hsid ⊢
      exact hs sid hsid
    | some orig =>
      simp only [duplicateNote, hf, Option.some.injEq] at hsid
      subst hsid
      show id2 ∈ noteIds (duplicateNote id id2 now s)
      simp only [duplicateNote, hf, noteIds]
      refine List.mem_map.mpr
        ⟨{ orig with
             id := id2,
             title := orig.title ++ " (Copy)",
             updatedAt := now },
         ?_, rfl⟩
      simp [List.mem_append]
  | select id hmem =>
    intro sid hsid
    have h2 : some id = some sid := hsid
    cases h2
    exact hmem

/-- The initial selection (first loaded note's id, or none) is valid. -/
theorem selOk_initState (loaded : List Note) : selOk (initState loaded) := by
  intro sid hsid
  obtain ⟨n, hn, rfl⟩ := Option.map_eq_some'.mp hsid
  exact List.mem_map_of_mem Note.id (jsIndex_mem _ _ _ hn)

/-- Every state the manager can reach satisfies the selection invariant. -/
theorem selOk_reachable (loaded : List Note) (s : AppState)
    (h : Reachable loaded s) : selOk s := by
  induction h with
  | refl => exact selOk_initState loaded
  | tail _ hstep ih => exact selOk_step _ _ hstep ih

/-! ### Claim theorems: invariants, store adapter, search filter -/

/-- C1: from any state with unique ids, any sequence of Collection
Manager operations (with `generateId` delivering ids not already
present) keeps every note id in the collection unique. -/
theorem ids_unique_reachable (s₀ s : AppState) (hnd : idsNodup s₀)
    (h : Relation.ReflTransGen Step s₀ s) : idsNodup s := by
  induction h with
  | refl => exact hnd
  | tail _ hstep ih => exact nodup_step _ _ hstep ih

/-- C3: in every state reachable from initialization by Collection
Manager operations, a non-none selection references an id present in
the collection. -/
theorem selection_valid_reachable (loaded : List Note) (s : AppState)
    (h : Reachable loaded s) : selOk s :=
  selOk_reachable loaded s h

/-- C9: in every reachable manager state, delete, update and duplicate
on an id not present in the collection leave the state (collection and
selection) unchanged. -/
theorem missing_id_noop (loaded : List Note) (s : AppState)
    (hreach : Reachable loaded s) (nid : String) (habs : nid ∉ noteIds s)
    (p : Patch) (now : Nat) (id2 : String) :
    deleteNote nid s = s ∧ updateNote nid p now s = s ∧
      duplicateNote nid id2 now s = s := by
  have hselOk := selOk_reachable loaded s hreach
  have hall : ∀ n ∈ s.notes, n.id ≠ nid := fun n hn he =>
    habs (he ▸ List.mem_map_of_mem Note.id hn)
  refine ⟨?_, ?_, ?_⟩
  · have hfil := filter_ne_of_absent s.notes nid hall
    have hselne : s.selectedId ≠ some nid := fun he => habs (hselOk nid he)
    have hd : deleteNote nid s =
        { notes := s.notes.filter (fun n => n.id != nid),
          selectedId :=
            if s.selectedId = some nid then
              (jsIndex (s.notes.filter (fun n => n.id != nid))
                (min (findIndexJs (fun n => n.id == nid) s.notes)
                  (((s.notes.filter (fun n => n.id != nid)).length : Int) - 1))).map Note.id
            else s.selectedId } := rfl
    rw [hd, if_neg hselne, hfil]
  · have hm := map_patch_of_absent s.notes nid (applyPatch p now) hall
    have hu : updateNote nid p now s =
        { s with notes := s.notes.map (fun n => if n.id = nid then applyPatch p now n else n) } :=
      rfl
    rw [hu, hm]
  · have hf : s.notes.find? (fun n => n.id == nid) = none :=
      List.find?_eq_none.mpr (fun n hn => by simp [hall n hn])
    simp [duplicateNote, hf]

/-- `leadsWith` decides the starts-with relation. -/
theorem leadsWith_iff (p l : List Char) : leadsWith p l = true ↔ p <+: l := by
  induction p generalizing l with
  | nil => simp [leadsWith]
  | cons a ps ih =>
    cases l with
    | nil => simp [leadsWith]
    | cons c cs => simp [leadsWith, ih, List.cons_prefix_cons]

/-- `containsSeq` decides contiguous containment. -/
theorem containsSeq_iff (p l : List Char) : containsSeq p l = true ↔ p <:+: l := by
  induction l with
  | nil => simp [containsSeq, List.isEmpty_iff]
  | cons c cs ih =>
    simp [containsSeq, leadsWith_iff, ih, List.infix_cons_iff]

/-- C5: the search filter is the identity for a query that normalizes to
empty, and otherwise returns exactly the subsequence (in original order)
of the notes whose lowercased `title ++ " " ++ content` contains the
normalized query as a substring. -/
theorem filterNotes_spec (notes : List Note) (q : String) :
    (normalizeQuery q = "" → filterNotes notes q = notes) ∧
    (filterNotes notes q).Sublist notes ∧
    (∀ n, n ∈ filterNotes notes q ↔ n ∈ notes ∧
      (normalizeQuery q = "" ∨
        (normalizeQuery q).data <:+: (toLowerStr (n.title ++ " " ++ n.content)).data)) := by
  by_cases hq : normalizeQuery q = ""
  · have hid : filterNotes notes q = notes := by
      simp [filterNotes, hq]
    refine ⟨fun _ => hid, ?_, fun n => ?_⟩
    · rw [hid]
    · rw [hid]
      simp [hq]
  · have hfil : filterNotes notes q =
        notes.filter (fun n =>
          includesSub (toLowerStr (n.title ++ " " ++ n.content)) (normalizeQuery q)) := by
      simp [filterNotes, hq]
    refine ⟨fun h => absurd h hq, hfil ▸ List.filter_sublist notes, fun n => ?_⟩
    rw [hfil, List.mem_filter]
    simp [includesSub, containsSeq_iff, hq]

/-- C6: whenever the stored value is absent, rejected by the JSON
parser, or parses to something other than an array, `loadNotes` returns
the empty sequence (and, being total, never throws). -/
theorem loadNotes_corrupt_empty (st : StoreVal)
    (h : ∀ xs : List JsValue, st ≠ StoreVal.json (JsValue.arr xs)) :
    loadNotes st = [] := by
  cases st with
  | absent => rfl
  | malformed => rfl
  | json v =>
    cases v with
    | arr xs => exact absurd rfl (h xs)
    | null => rfl
    | bool b => rfl
    | num n => rfl
    | str s => rfl
    | obj fields => rfl

/-- The JSON encoding of a note determines the note. -/
theorem toJs_injective : Function.Injective Note.toJs := by
  intro a b h
  cases a
  cases b
  simp only [Note.toJs, JsValue.obj.injEq, List.cons.injEq, Prod.mk.injEq,
    JsValue.str.injEq, JsValue.num.injEq, true_and, and_true, Nat.cast_inj] at h
  obtain ⟨h1, h2, h3, h4⟩ := h
  simp_all

/-- C7: saving any well-formed notes sequence and loading it back yields
the same sequence: the load returns exactly the serialized notes, and
the serialization is faithful (equal images force equal sequences). -/
theorem save_load_roundtrip (notes other : List Note) (st : StoreVal) :
    loadNotes (saveNotes notes st) = notes.map Note.toJs ∧
    (notes.map Note.toJs = other.map Note.toJs → notes = other) := by
  refine ⟨rfl, fun h => ?_⟩
  exact List.map_injective_iff.mpr toJs_injective h

/-- C10: a stored value parsing to a JSON array is returned by
`loadNotes` as-is, with no validation of its elements (here: an array
holding a number, a string and an object missing all note fields). -/
theorem loadNotes_no_validation (xs : List JsValue) :
    loadNotes (StoreVal.json (JsValue.arr xs)) = xs := rfl

/-! ### Witnesses: the claim theorems applied at concrete inputs -/

/-- C1 witness: one create step from the empty collection. -/
theorem ids_unique_reachable_witness :
    idsNodup (createNote "n1" 0 { notes := [], selectedId := none }) :=
  ids_unique_reachable { notes := [], selectedId := none } _
    (by unfold idsNodup noteIds; decide)
    (Relation.ReflTransGen.single
      (Step.create { notes := [], selectedId := none } "n1" 0 (by decide)))

/-- C2 witness: deleting the selected last note of `[A, B, C]` keeps
`[A, B]` and selects `b`. -/
theorem deleteNote_spec_witness :
    (deleteNote "c"
      { notes := [⟨"a", "A", "", 0⟩, ⟨"b", "B", "", 0⟩, ⟨"c", "C", "", 0⟩],
        selectedId := some "c" }).notes = [⟨"a", "A", "", 0⟩, ⟨"b", "B", "", 0⟩] ∧
    (deleteNote "c"
      { notes := [⟨"a", "A", "", 0⟩, ⟨"b", "B", "", 0⟩, ⟨"c", "C", "", 0⟩],
        selectedId := some "c" }).selectedId = some "b" := by
  have h := deleteNote_spec
    { notes := [⟨"a", "A", "", 0⟩, ⟨"b", "B", "", 0⟩, ⟨"c", "C", "", 0⟩],
      selectedId := some "c" }
    "c" 2 (by unfold idsNodup noteIds; decide) (by decide) rfl
  exact ⟨by rw [h.1]; rfl, by rw [h.2 rfl]; rfl⟩

/-- C3 witness: the state just after initialization from one stored note. -/
theorem selection_valid_reachable_witness :
    selOk (initState [⟨"a", "A", "", 0⟩]) :=
  selection_valid_reachable [⟨"a", "A", "", 0⟩] _ Relation.ReflTransGen.refl

/-- C4 witness: duplicating `a` in `[A, B]` yields `[A, A (Copy), B]`
with the copy selected. -/
theorem duplicateNote_spec_witness :
    duplicateNote "a" "x" 5
      { notes := [⟨"a", "A", "", 0⟩, ⟨"b", "B", "", 0⟩], selectedId := some "a" } =
    { notes := [⟨"a", "A", "", 0⟩, ⟨"x", "A (Copy)", "", 5⟩, ⟨"b", "B", "", 0⟩],
      selectedId := some "x" } := by
  have h := duplicateNote_spec
    { notes := [⟨"a", "A", "", 0⟩, ⟨"b", "B", "", 0⟩], selectedId := some "a" }
    "a" "x" 5 0 (by unfold idsNodup noteIds; decide) (by decide) rfl
  rw [h]
  rfl

/-- C5 witness: the blank query is the identity, and the query "milk"
keeps the Shopping/milk note. -/
theorem filterNotes_spec_witness :
    filterNotes [⟨"s1", "Shopping", "milk", 0⟩] "" = [⟨"s1", "Shopping", "milk", 0⟩] ∧
    (⟨"s1", "Shopping", "milk", 0⟩ : Note) ∈
      filterNotes [⟨"s1", "Shopping", "milk", 0⟩] "milk" :=
  ⟨(filterNotes_spec [⟨"s1", "Shopping", "milk", 0⟩] "").1 (by decide),
   ((filterNotes_spec [⟨"s1", "Shopping", "milk", 0⟩] "milk").2.2 _).mpr
     ⟨List.mem_cons_self _ _, Or.inr ((containsSeq_iff _ _).mp (by decide))⟩⟩

/-- C6 witness: a store holding unparseable text, and one holding the
JSON number 3, both load as the empty sequence. -/
theorem loadNotes_corrupt_empty_witness :
    loadNotes StoreVal.malformed = [] ∧
    loadNotes (StoreVal.json (JsValue.num 3)) = [] :=
  ⟨loadNotes_corrupt_empty StoreVal.malformed (fun _ h => StoreVal.noConfusion h),
   loadNotes_corrupt_empty (StoreVal.json (JsValue.num 3))
     (fun _ h => JsValue.noConfusion (StoreVal.json.inj h))⟩

/-- C7 witness: a one-note collection survives the save/load round
trip. -/
theorem save_load_roundtrip_witness :
    loadNotes (saveNotes [⟨"a", "A", "body", 3⟩] StoreVal.absent)
      = [Note.toJs ⟨"a", "A", "body", 3⟩] ∧
    ([⟨"a", "A", "body", 3⟩] : List Note) = [⟨"a", "A", "body", 3⟩] :=
  ⟨(save_load_roundtrip [⟨"a", "A", "body", 3⟩] [⟨"a", "A", "body", 3⟩] StoreVal.absent).1,
   (save_load_roundtrip [⟨"a", "A", "body", 3⟩] [⟨"a", "A", "body", 3⟩] StoreVal.absent).2 rfl⟩

/-- C8 witness: patching only the title changes title and updatedAt of
the matching note and nothing else. -/
theorem updateNote_spec_witness :
    updateNote "a" { title := some "X" } 7
      { notes := [⟨"a", "A", "keep", 0⟩, ⟨"b", "B", "", 0⟩], selectedId := some "b" } =
    { notes := [⟨"a", "X", "keep", 7⟩, ⟨"b", "B", "", 0⟩], selectedId := some "b" } := by
  have h := updateNote_spec
    { notes := [⟨"a", "A", "keep", 0⟩, ⟨"b", "B", "", 0⟩], selectedId := some "b" }
    "a" { title := some "X" } 7 0 (by unfold idsNodup noteIds; decide) (by decide) rfl
  rw [h]
  rfl

/-- C9 witness: delete, update and duplicate with the stale id "z" on
the freshly initialized one-note state are all no-ops. -/
theorem missing_id_noop_witness :
    deleteNote "z" (initState [⟨"a", "A", "", 0⟩]) = initState [⟨"a", "A", "", 0⟩] ∧
    updateNote "z" {} 1 (initState [⟨"a", "A", "", 0⟩]) = initState [⟨"a", "A", "", 0⟩] ∧
    duplicateNote "z" "w" 1 (initState [⟨"a", "A", "", 0⟩]) = initState [⟨"a", "A", "", 0⟩] :=
  missing_id_noop [⟨"a", "A", "", 0⟩] _ Relation.ReflTransGen.refl "z" (by decide) {} 1 "w"

end NotesApp
